import Mathlib

/-!
Shallow embedding of `git-prpush` (`src/main.go`).

The program derives "PR branch" heads from the commit history between
`HEAD` and a target branch.  Pure logic is embedded directly; the git
backend (parents / messages of commits, the list of existing tags, and
the outcome of each mutating call) is passed in explicitly:

* `Graph` stands for the history backend (`getParents` / `getMessage`)
  when reads always succeed; `GraphE` is the fallible variant, where a
  `none` answer models a failing `git show` (which `log.Fatalf` turns
  into an immediate abort of the run).
* `traversePaths` embeds `traversePaths`/`findCommitPaths`; the Go
  recursion carries no fuel, so a `Nat` fuel argument makes it total
  (every claim is either fuel-generic or instantiated with enough fuel).
* `findTipsOfPrs` embeds the segment extractor, with the stopper-index
  pass (`stopperIndices`) and the emission loop (`tipsLoop`) split out.
* `dfsPushes` embeds the deduplicating publisher: it returns the list of
  heads actually handed to the callback `f` (the publish events, in
  order) together with the final `pushed` set, modelled as a list of
  shas.  `processPaths` is the loop of `main` over all enumerated paths,
  threading the (process-global in Go) `pushed` set.
* `removeStaleTags` embeds the stale-tag reaper, returning the list of
  tags it deletes, and `mainDeletions` is the final `removeStaleTags`
  call of `main`, with `activeTags` built exactly as `main` builds
  `active` (only a dry run appends to it).
* `runMutations` / `removeStaleTagsR` are the same publisher and reaper
  with an explicit backend-outcome function (`cmd.Run()`'s result, which
  the Go code discards), used to state the error-handling claims.
-/

/-- The `commit` struct of main.go.  `message` is never populated by
`makeCommit` (as in the source), `psBranch` is the extracted branch tag,
`isMerge` is true iff the commit has more than one parent. -/
structure Commit where
  sha : String
  message : String
  psBranch : String
  isMerge : Bool
  deriving DecidableEq, Inhabited

/-- The `head` struct of main.go: a (tip commit, target ref) pair. -/
structure Head where
  sha : String
  ref : String
  deriving DecidableEq, Inhabited

/-- The `pushResult` struct of main.go, used here as the outcome of one
backend mutation (the Go code declares it but discards `cmd.Run()`'s
error; the outcome functions below model that discarded result). -/
structure pushResult where
  success : Bool
  message : String
  deriving DecidableEq, Inhabited

/-- ASCII lowercasing of one character (the fragment of Go's
`strings.ToLower` relevant to the refs this tool handles). -/
def lowerChar (ch : Char) : Char :=
  if 'A' ≤ ch ∧ ch ≤ 'Z' then Char.ofNat (ch.toNat + 32) else ch

/-- `strings.ToLower`, as a kernel-reducible char-list map. -/
def strLower (s : String) : String := String.mk (s.data.map lowerChar)

/-- Prefix test on char lists, by structural recursion. -/
def isPrefixList : List Char → List Char → Bool
  | [], _ => true
  | _ :: _, [] => false
  | a :: as, b :: bs => a == b && isPrefixList as bs

/-- `strings.HasPrefix s pre`, as a kernel-reducible char-list test. -/
def strStartsWith (s pre : String) : Bool := isPrefixList pre.data s.data

/-- `strings.TrimPrefix`, specialised to the case where the prefix is
known to be present: drop its length. -/
def strDrop (s : String) (n : Nat) : String := String.mk (s.data.drop n)

/-- ASCII whitespace (the fragment of Go's `unicode.IsSpace` relevant to
commit messages). -/
def isSpaceChar (ch : Char) : Bool := ch == ' ' || ch == '\t' || ch == '\n' || ch == '\r'

/-- `strings.TrimSpace`, as a kernel-reducible char-list operation. -/
def strTrim (s : String) : String :=
  String.mk (((s.data.dropWhile isSpaceChar).reverse.dropWhile isSpaceChar).reverse)

/-- Helper for `splitLines`: accumulate the current line (reversed). -/
def splitLinesAux : List Char → List Char → List String
  | [], acc => [String.mk acc.reverse]
  | ch :: rest, acc =>
    if ch = '\n' then String.mk acc.reverse :: splitLinesAux rest []
    else splitLinesAux rest (ch :: acc)

/-- `strings.Split s "\n"`, as a kernel-reducible char-list operation. -/
def splitLines (s : String) : List String := splitLinesAux s.data []

/-- `BRANCH_PREFIX` of main.go (renamed for this development). -/
def BRANCH_PFX : String := "PR_BRANCH"

/-- `tagName` of main.go: `fmt.Sprintf("%s/%s", BRANCH_PREFIX, head.ref)`. -/
def tagName (h : Head) : String := BRANCH_PFX ++ "/" ++ h.ref

/-- `shouldIgnoreRef` of main.go: lowercase the ref and test membership
in `{"", "null", "nil"}`. -/
def shouldIgnoreRef (ref : String) : Bool :=
  let r := strLower ref
  r == "" || r == "null" || r == "nil"

/-- `findBranchTag` of main.go: trim the message, split into lines, and
return the remainder of the first line starting with `PR_BRANCH=`. -/
def findBranchTag (message : String) : String :=
  let lines := splitLines (strTrim message)
  match lines.find? (fun line => strStartsWith line (BRANCH_PFX ++ "=")) with
  | some line => strDrop line (BRANCH_PFX ++ "=").length
  | none => ""

/-- Index loop of `findTipsOfPrs`'s first pass: `i` is the index of the
head of the remaining commit list. -/
def stopperIndicesAux : List Commit → Nat → List Nat
  | [], _ => []
  | c :: rest, i =>
    if (c.psBranch != "") || c.isMerge then i :: stopperIndicesAux rest (i + 1)
    else stopperIndicesAux rest (i + 1)

/-- First pass of `findTipsOfPrs`: the indices `i` with
`commits[i].psBranch != "" || commits[i].isMerge` (the `stoppers`
slice), in increasing order. -/
def stopperIndices (commits : List Commit) : List Nat :=
  stopperIndicesAux commits 0

/-- Second pass of `findTipsOfPrs`: walk the stopper indices carrying
`last` (the start of the current window); a non-merge stopper with a
branch tag emits a head whose sha is `commits[last].sha`; every stopper
resets `last` to its own index plus one. -/
def tipsLoop (commits : List Commit) : List Nat → Nat → List Head
  | [], _ => []
  | s :: rest, last =>
    let c := commits.getD s default
    let t := tipsLoop commits rest (s + 1)
    if !c.isMerge && c.psBranch != "" then
      { sha := (commits.getD last default).sha, ref := c.psBranch } :: t
    else
      t

/-- `findTipsOfPrs` of main.go. -/
def findTipsOfPrs (commits : List Commit) : List Head :=
  let stoppers := stopperIndices commits
  if stoppers.isEmpty then [] else tipsLoop commits stoppers 0

/-- `dfsPushes` of main.go: scan the heads in order; skip ignorable refs
and shas already in `pushed`; otherwise invoke the callback and add the
sha to `pushed`.  Returns (heads handed to the callback, in order; final
`pushed` set). -/
def dfsPushes : List Head → List String → List Head × List String
  | [], pushed => ([], pushed)
  | h :: rest, pushed =>
    if shouldIgnoreRef h.ref || pushed.contains h.sha then
      dfsPushes rest pushed
    else
      let r := dfsPushes rest (h.sha :: pushed)
      (h :: r.1, r.2)

/-- The loop of `main` over all enumerated paths: each path's tips are
fed to `dfsPushes`, threading the process-global `pushed` set.  Returns
(all publish events across paths, in order; final `pushed` set). -/
def processPaths : List (List Commit) → List String → List Head × List String
  | [], pushed => ([], pushed)
  | p :: rest, pushed =>
    let r1 := dfsPushes (findTipsOfPrs p) pushed
    let r2 := processPaths rest r1.2
    (r1.1 ++ r2.1, r2.2)

/-- The `active` list as `main` builds it: `tagBranches` records
`tagName` of every published head, but only when `--dry` is set; in live
mode `pushBranches` records nothing, so `active` stays empty. -/
def activeTags (dry : Bool) (paths : List (List Commit)) : List String :=
  if dry then (processPaths paths []).1.map tagName else []

/-- `removeStaleTags` of main.go: for each listed tag, skip it unless
its name starts with `BRANCH_PREFIX`; skip it if it is in `active`;
otherwise delete it.  Returns the deleted tags in order. -/
def removeStaleTags (active : List String) : List String → List String
  | [] => []
  | tag :: rest =>
    if !(strStartsWith tag BRANCH_PFX) then removeStaleTags active rest
    else if active.contains tag then removeStaleTags active rest
    else tag :: removeStaleTags active rest

/-- The final phase of `main`: `removeStaleTags(active)` is called
unconditionally, with `active` as built for the run's mode. -/
def mainDeletions (dry : Bool) (paths : List (List Commit)) (allTags : List String) :
    List String :=
  removeStaleTags (activeTags dry paths) allTags

/-- The git history backend with always-succeeding reads: `parents` is
`getParents`, `message` is `getMessage`. -/
structure Graph where
  parents : String → List String
  message : String → String

/-- `makeCommit` of main.go: build the `Commit` record for a sha from
its message (branch tag) and parent count (merge status). -/
def makeCommit (g : Graph) (sha : String) : Commit :=
  { sha := sha
    message := ""
    psBranch := findBranchTag (g.message sha)
    isMerge := (g.parents sha).length > 1 }

/-- `traversePaths` of main.go: DFS from `source`; reaching `target`
snapshots the accumulated `path`; otherwise append `makeCommit source`
and recurse into every parent.  The Go recursion has no fuel; the `Nat`
argument bounds the recursion depth to make the function total. -/
def traversePaths (g : Graph) : Nat → String → String → List Commit → List (List Commit)
  | 0, _, _, _ => []
  | fuel + 1, source, target, path =>
    if source = target then [path]
    else
      ((g.parents source).map
        (fun p => traversePaths g fuel p target (path ++ [makeCommit g source]))).flatten

/-- A parent-chain from `source` down to (but excluding) `target`: the
list starts with `makeCommit` of `source`, each later element is
`makeCommit` of a parent of the previous sha, and the list ends exactly
when `target` is reached. -/
def isChain (g : Graph) (target : String) : String → List Commit → Prop
  | source, [] => source = target
  | source, c :: rest =>
    c = makeCommit g source ∧ source ≠ target ∧
      ∃ p ∈ g.parents source, isChain g target p rest

/-- The fallible history backend: a `none` answer is a failing
`git show`, which main.go turns into `log.Fatalf` (abort). -/
structure GraphE where
  parents : String → Option (List String)
  message : String → Option (String)

/-- `makeCommit` over the fallible backend: a failing read of the
message or the parents aborts (propagates `none`). -/
def makeCommitE (g : GraphE) (sha : String) : Option Commit :=
  match g.message sha, g.parents sha with
  | some msg, some ps =>
    some { sha := sha, message := "", psBranch := findBranchTag msg,
           isMerge := ps.length > 1 }
  | _, _ => none

/-- Abort-propagating concatenation of the recursive results of
`traversePathsE` over the parents of a commit. -/
def joinResults : List (Option (List (List Commit))) → Option (List (List Commit))
  | [] => some []
  | r :: rest =>
    match r, joinResults rest with
    | some a, some b => some (a ++ b)
    | _, _ => none

/-- `traversePaths` over the fallible backend: a failing `getParents` or
`getMessage` anywhere aborts the whole enumeration (`none`), exactly as
`log.Fatalf` kills the process. -/
def traversePathsE (g : GraphE) : Nat → String → String → List Commit → Option (List (List Commit))
  | 0, _, _, _ => some []
  | fuel + 1, source, target, path =>
    if source = target then some [path]
    else
      match g.parents source, makeCommitE g source with
      | some parents, some c =>
        joinResults (parents.map (fun p => traversePathsE g fuel p target (path ++ [c])))
      | _, _ => none

/-- A concrete two-step history used by witnesses: commit `a` has parent
`b`, commit `b` has parent `t` (the target); all messages empty. -/
def gLinear : Graph :=
  { parents := fun s => if s = "a" then ["b"] else if s = "b" then ["t"] else []
    message := fun _ => "" }

/-- A concrete backend whose reads all fail, used by witnesses. -/
def gFail : GraphE :=
  { parents := fun _ => none
    message := fun _ => none }

/-- `dfsPushes` with the outcome of each mutating backend call made
explicit: `res h` is what `cmd.Run()` returns for head `h`.  The Go code
discards that value (`_ = cmd.Run()`), so the recursion never consults
it; the events list records each attempt with its outcome. -/
def runMutations (res : Head → pushResult) :
    List Head → List String → List (Head × pushResult) × List String
  | [], pushed => ([], pushed)
  | h :: rest, pushed =>
    if shouldIgnoreRef h.ref || pushed.contains h.sha then
      runMutations res rest pushed
    else
      let r := runMutations res rest (h.sha :: pushed)
      ((h, res h) :: r.1, r.2)

/-- `removeStaleTags` with the outcome of each `git tag --delete` made
explicit; as in the source, the outcome is discarded and the loop
continues over the remaining tags. -/
def removeStaleTagsR (res : String → pushResult) (active : List String) :
    List String → List (String × pushResult)
  | [] => []
  | tag :: rest =>
    if !(strStartsWith tag BRANCH_PFX) then removeStaleTagsR res active rest
    else if active.contains tag then removeStaleTagsR res active rest
    else (tag, res tag) :: removeStaleTagsR res active rest

/-! ## General lemmas about the embedded program -/

/-- Appending on the left is injective for strings. -/
theorem strAppendCancel (s t u : String) (h : s ++ t = s ++ u) : t = u := by
  have hd : s.data ++ t.data = s.data ++ u.data := by
    have := congrArg String.data h
    simpa using this
  have hdu : t.data = u.data := List.append_cancel_left hd
  cases t; cases u
  simp only at hdu
  rw [hdu]

/-- Two heads with the same namespaced tag name have the same ref. -/
theorem tagNameInj (e h : Head) (heq : tagName e = tagName h) : e.ref = h.ref :=
  strAppendCancel (BRANCH_PFX ++ "/") e.ref h.ref
    (by simpa [tagName, String.append_assoc] using heq)

/-- Invariant of the deduplicating publisher: the published shas are
pairwise distinct and disjoint from the incoming `pushed` set; the final
`pushed` set is exactly the incoming one plus the published shas; and
every published head is a non-ignorable member of the input. -/
theorem dfsPushes_inv (heads : List Head) : ∀ pushed : List String,
    (((dfsPushes heads pushed).1.map Head.sha).Nodup) ∧
    (∀ s ∈ (dfsPushes heads pushed).1.map Head.sha, s ∉ pushed) ∧
    (∀ s, s ∈ (dfsPushes heads pushed).2 ↔
      s ∈ pushed ∨ s ∈ (dfsPushes heads pushed).1.map Head.sha) ∧
    (∀ e ∈ (dfsPushes heads pushed).1, shouldIgnoreRef e.ref = false ∧ e ∈ heads) := by
  induction heads with
  | nil => intro pushed; simp [dfsPushes]
  | cons h rest ih =>
    intro pushed
    by_cases hc : (shouldIgnoreRef h.ref || pushed.contains h.sha) = true
    · obtain ⟨n1, n2, n3, n4⟩ := ih pushed
      rw [dfsPushes, if_pos hc]
      refine ⟨n1, n2, n3, ?_⟩
      intro e he
      exact ⟨(n4 e he).1, List.mem_cons_of_mem _ (n4 e he).2⟩
    · obtain ⟨n1, n2, n3, n4⟩ := ih (h.sha :: pushed)
      rw [dfsPushes, if_neg hc]
      simp only [Bool.or_eq_true, not_or, Bool.not_eq_true] at hc
      obtain ⟨hign, hcont⟩ := hc
      have hsha : h.sha ∉ pushed := by
        simpa using hcont
      refine ⟨?_, ?_, ?_, ?_⟩
      · simp only [List.map_cons, List.nodup_cons]
        refine ⟨?_, n1⟩
        intro hmem
        have := n2 _ hmem
        simp at this
      · intro s hs
        simp only [List.map_cons, List.mem_cons] at hs
        rcases hs with rfl | hs
        · exact hsha
        · intro hp
          exact n2 s hs (List.mem_cons_of_mem _ hp)
      · intro s
        rw [n3 s]
        simp only [List.map_cons, List.mem_cons]
        tauto
      · intro e he
        simp only [List.mem_cons] at he
        rcases he with rfl | he
        · exact ⟨hign, List.mem_cons_self _ _⟩
        · exact ⟨(n4 e he).1, List.mem_cons_of_mem _ (n4 e he).2⟩

/-- The publisher invariant lifted over the whole run (`main`'s loop
over every enumerated path, threading the global `pushed` set). -/
theorem processPaths_inv (paths : List (List Commit)) : ∀ pushed : List String,
    (((processPaths paths pushed).1.map Head.sha).Nodup) ∧
    (∀ s ∈ (processPaths paths pushed).1.map Head.sha, s ∉ pushed) ∧
    (∀ s, s ∈ (processPaths paths pushed).2 ↔
      s ∈ pushed ∨ s ∈ (processPaths paths pushed).1.map Head.sha) := by
  induction paths with
  | nil => intro pushed; simp [processPaths]
  | cons p rest ih =>
    intro pushed
    obtain ⟨d1, d2, d3, _⟩ := dfsPushes_inv (findTipsOfPrs p) pushed
    obtain ⟨r1, r2, r3⟩ := ih (dfsPushes (findTipsOfPrs p) pushed).2
    rw [processPaths]
    simp only [List.map_append, List.nodup_append]
    refine ⟨⟨d1, r1, ?_⟩, ?_, ?_⟩
    · intro s hs1 hs2
      have : s ∈ (dfsPushes (findTipsOfPrs p) pushed).2 := (d3 s).2 (Or.inr hs1)
      exact r2 s hs2 this
    · intro s hs
      rcases List.mem_append.1 hs with hs | hs
      · exact d2 s hs
      · intro hp
        have : s ∈ (dfsPushes (findTipsOfPrs p) pushed).2 := (d3 s).2 (Or.inl hp)
        exact r2 s hs this
    · intro s
      rw [r3 s, d3 s]
      simp only [List.mem_append]
      tauto

/-- Every path recorded by the DFS extends the accumulator with a
parent-chain from the source down to (but excluding) the target. -/
theorem traversePaths_chain (g : Graph) : ∀ (fuel : Nat) (source target : String)
    (acc : List Commit) (p : List Commit),
    p ∈ traversePaths g fuel source target acc →
    ∃ rest, p = acc ++ rest ∧ isChain g target source rest := by
  intro fuel
  induction fuel with
  | zero => intro source target acc p hp; simp [traversePaths] at hp
  | succ fuel ih =>
    intro source target acc p hp
    rw [traversePaths] at hp
    by_cases hst : source = target
    · rw [if_pos hst] at hp
      simp only [List.mem_singleton] at hp
      subst hp
      exact ⟨[], by simp, by simpa [isChain] using hst⟩
    · rw [if_neg hst] at hp
      simp only [List.mem_flatten, List.mem_map] at hp
      obtain ⟨l, ⟨par, hpar, rfl⟩, hpl⟩ := hp
      obtain ⟨rest, rfl, hchain⟩ := ih par target (acc ++ [makeCommit g source]) p hpl
      refine ⟨makeCommit g source :: rest, by simp, ?_⟩
      exact ⟨rfl, hst, par, hpar, hchain⟩

/-- No commit on a parent-chain below `target` carries the target sha. -/
theorem isChain_sha_ne (g : Graph) (target : String) :
    ∀ (rest : List Commit) (source : String), isChain g target source rest →
      ∀ c ∈ rest, c.sha ≠ target := by
  intro rest
  induction rest with
  | nil => intro source _ c hc; simp at hc
  | cons c rest ih =>
    intro source hch d hd
    obtain ⟨rfl, hst, par, hpar, hchain⟩ := hch
    rcases List.mem_cons.1 hd with rfl | hd
    · simpa [makeCommit] using hst
    · exact ih par hchain d hd

/-- Every index produced by the stopper scan is in bounds (relative to
the running offset `i`). -/
theorem stopperIndicesAux_bound : ∀ (cs : List Commit) (i j : Nat),
    j ∈ stopperIndicesAux cs i → i ≤ j ∧ j - i < cs.length := by
  intro cs
  induction cs with
  | nil => intro i j hj; simp [stopperIndicesAux] at hj
  | cons c rest ih =>
    intro i j hj
    rw [stopperIndicesAux] at hj
    by_cases hc : ((c.psBranch != "") || c.isMerge) = true
    · rw [if_pos hc] at hj
      rcases List.mem_cons.1 hj with rfl | hj
      · simp
      · have := ih (i + 1) j hj
        constructor
        · omega
        · simp only [List.length_cons]; omega
    · rw [if_neg hc] at hj
      have := ih (i + 1) j hj
      constructor
      · omega
      · simp only [List.length_cons]; omega

/-- Every head emitted by the tip loop is justified by a non-merge
commit of the path that carries its branch tag. -/
theorem tipsLoopEmits (cs : List Commit) : ∀ (ss : List Nat) (last : Nat),
    (∀ j ∈ ss, j < cs.length) →
    ∀ h ∈ tipsLoop cs ss last,
      ∃ c ∈ cs, c.isMerge = false ∧ c.psBranch ≠ "" ∧ c.psBranch = h.ref := by
  intro ss
  induction ss with
  | nil => intro last _ h hh; simp [tipsLoop] at hh
  | cons s rest ih =>
    intro last hbound h hh
    rw [tipsLoop] at hh
    by_cases hc : (!(cs.getD s default).isMerge && (cs.getD s default).psBranch != "") = true
    · rw [if_pos hc] at hh
      simp only [Bool.and_eq_true, Bool.not_eq_true', bne_iff_ne] at hc
      rcases List.mem_cons.1 hh with rfl | hh
      · refine ⟨cs.getD s default, ?_, hc.1, hc.2, rfl⟩
        have hs : s < cs.length := hbound s (List.mem_cons_self _ _)
        rw [List.getD_eq_getElem _ _ hs]
        exact List.getElem_mem _
      · exact ih (s + 1) (fun j hj => hbound j (List.mem_cons_of_mem _ hj)) h hh
    · rw [if_neg hc] at hh
      exact ih (s + 1) (fun j hj => hbound j (List.mem_cons_of_mem _ hj)) h hh

/-- The mutation loop with explicit backend outcomes attempts exactly
the heads of `dfsPushes` and ends in the same `pushed` set, whatever the
outcomes are. -/
theorem runMutations_eq (res : Head → pushResult) : ∀ (heads : List Head) (pushed : List String),
    (runMutations res heads pushed).1.map Prod.fst = (dfsPushes heads pushed).1 ∧
    (runMutations res heads pushed).2 = (dfsPushes heads pushed).2 := by
  intro heads
  induction heads with
  | nil => intro pushed; simp [runMutations, dfsPushes]
  | cons h rest ih =>
    intro pushed
    rw [runMutations, dfsPushes]
    by_cases hc : (shouldIgnoreRef h.ref || pushed.contains h.sha) = true
    · rw [if_pos hc, if_pos hc]
      exact ih pushed
    · rw [if_neg hc, if_neg hc]
      obtain ⟨e1, e2⟩ := ih (h.sha :: pushed)
      simp [e1, e2]

/-- The reaper with explicit delete outcomes attempts exactly the
deletions of `removeStaleTags`, whatever the outcomes are. -/
theorem removeStaleTagsR_eq (res : String → pushResult) (active : List String) :
    ∀ tags : List String,
    (removeStaleTagsR res active tags).map Prod.fst = removeStaleTags active tags := by
  intro tags
  induction tags with
  | nil => simp [removeStaleTagsR, removeStaleTags]
  | cons tag rest ih =>
    rw [removeStaleTagsR, removeStaleTags]
    by_cases h1 : (!(strStartsWith tag BRANCH_PFX)) = true
    · rw [if_pos h1, if_pos h1]; exact ih
    · rw [if_neg h1, if_neg h1]
      by_cases h2 : (active.contains tag) = true
      · rw [if_pos h2, if_pos h2]; exact ih
      · rw [if_neg h2, if_neg h2]
        simp only [List.map_cons, ih]

/-- With an empty active set the reaper deletes exactly the tags whose
names start with the namespace prefix. -/
theorem removeStaleTags_nil_active : ∀ tags : List String,
    removeStaleTags [] tags = tags.filter (fun t => strStartsWith t BRANCH_PFX) := by
  intro tags
  induction tags with
  | nil => simp [removeStaleTags]
  | cons tag rest ih =>
    rw [removeStaleTags, List.filter_cons]
    by_cases h1 : strStartsWith tag BRANCH_PFX = true
    · simp [h1, ih]
    · simp only [Bool.not_eq_true] at h1
      simp [h1, ih]

/-- Every tag the reaper deletes starts with the namespace prefix. -/
theorem removeStaleTags_sub : ∀ (active tags : List String),
    (∀ u ∈ removeStaleTags active tags, strStartsWith u BRANCH_PFX = true) := by
  intro active tags
  induction tags with
  | nil => intro u hu; simp [removeStaleTags] at hu
  | cons tag rest ih =>
    intro u hu
    rw [removeStaleTags] at hu
    by_cases h1 : (!(strStartsWith tag BRANCH_PFX)) = true
    · rw [if_pos h1] at hu; exact ih u hu
    · rw [if_neg h1] at hu
      by_cases h2 : (active.contains tag) = true
      · rw [if_pos h2] at hu; exact ih u hu
      · rw [if_neg h2] at hu
        rcases List.mem_cons.1 hu with rfl | hu
        · simpa using h1
        · exact ih u hu

/-- Every listed tag that starts with the namespace prefix and is not in
the active set gets deleted by the reaper. -/
theorem removeStaleTags_mem : ∀ (active tags : List String) (t : String),
    t ∈ tags → strStartsWith t BRANCH_PFX = true → t ∉ active →
    t ∈ removeStaleTags active tags := by
  intro active tags
  induction tags with
  | nil => intro t ht; simp at ht
  | cons tag rest ih =>
    intro t ht hpre hact
    rw [removeStaleTags]
    rcases List.mem_cons.1 ht with rfl | ht
    · rw [if_neg (by simpa using hpre)]
      rw [if_neg (by simpa using hact)]
      exact List.mem_cons_self _ _
    · by_cases h1 : (!(strStartsWith tag BRANCH_PFX)) = true
      · rw [if_pos h1]; exact ih t ht hpre hact
      · rw [if_neg h1]
        by_cases h2 : (active.contains tag) = true
        · rw [if_pos h2]; exact ih t ht hpre hact
        · rw [if_neg h2]
          exact List.mem_cons_of_mem _ (ih t ht hpre hact)

/-! ## Claim theorems -/

/-- Claim C1, counterexample: in live (non-dry-run) mode the final
reaping phase is still executed with an empty active set, so a run over
an empty history with the single namespace tag `PR_BRANCH/x` deletes
that tag — the namespace is not left unchanged. -/
theorem live_run_deletes_namespace_tag_cex :
    mainDeletions false [] ["PR_BRANCH/x"] = ["PR_BRANCH/x"] ∧
    mainDeletions false [] ["PR_BRANCH/x"] ≠ [] := by
  decide

/-- Claim C1, amended: `main` calls `removeStaleTags` unconditionally;
in live mode the active set is empty, so the run's final reaping phase
deletes every tag whose name starts with the namespace prefix. -/
theorem live_run_reaper_deletes_all_namespace_tags
    (paths : List (List Commit)) (allTags : List String) :
    mainDeletions false paths allTags
      = allTags.filter (fun t => strStartsWith t BRANCH_PFX) := by
  rw [mainDeletions]
  have h : activeTags false paths = [] := by simp [activeTags]
  rw [h]
  exact removeStaleTags_nil_active allTags

/-- Claim C2, counterexample: two heads with the same tip identity `s`
and distinct non-ignorable refs `a`, `b` are both presented to the
publisher, but only the first is published — the second is skipped by
the identity check. -/
theorem same_identity_distinct_ref_skipped_cex :
    (dfsPushes [{ sha := "s", ref := "a" }, { sha := "s", ref := "b" }] []).1
        = [{ sha := "s", ref := "a" }] ∧
    ({ sha := "s", ref := "b" } : Head) ∉
      (dfsPushes [{ sha := "s", ref := "a" }, { sha := "s", ref := "b" }] []).1 ∧
    shouldIgnoreRef "a" = false ∧ shouldIgnoreRef "b" = false := by
  decide

/-- Claim C2, amended: of two heads sharing a tip identity, only the
first (non-ignorable, not-yet-published) one is published; the
identity-based deduplication skips the later head even though its ref is
distinct. -/
theorem dedup_skips_distinct_ref_same_identity (h1 h2 : Head) (pushed : List String)
    (hsha : h2.sha = h1.sha) (hign : shouldIgnoreRef h1.ref = false)
    (hnew : pushed.contains h1.sha = false) :
    (dfsPushes [h1, h2] pushed).1 = [h1] := by
  have hmem : h1.sha ∉ pushed := by simpa using hnew
  simp [dfsPushes, hign, hsha, hmem]

/-- Claim C2, amended, witness. -/
theorem dedup_skips_distinct_ref_same_identity_witness :
    (dfsPushes [{ sha := "s", ref := "a" }, { sha := "s", ref := "b" }] []).1
      = [{ sha := "s", ref := "a" }] :=
  dedup_skips_distinct_ref_same_identity
    { sha := "s", ref := "a" } { sha := "s", ref := "b" } []
    (by decide) (by decide) (by decide)

/-- Claim C3: within one run (the `main` loop over every enumerated
path, starting from the empty published set), the shas handed to the
publish callback are pairwise distinct — a given commit identity is
published at most once, even across paths. -/
theorem published_identity_at_most_once (paths : List (List Commit)) :
    (((processPaths paths []).1).map Head.sha).Nodup :=
  (processPaths_inv paths []).1

/-- Claim C4, counterexample: with history `a → b → t`, enumerating from
source `a` to target `t` yields the single path `[a, b]`, which contains
the source commit `a` — the path does not exclude the source. -/
theorem path_contains_source_cex :
    traversePaths gLinear 3 "a" "t" []
        = [[makeCommit gLinear "a", makeCommit gLinear "b"]] ∧
    ¬ (∀ p ∈ traversePaths gLinear 3 "a" "t" [], ∀ c ∈ p, c.sha ≠ "a") := by
  decide

/-- Claim C4, amended: every enumerated path is a parent-chain that
starts with the source commit (when source ≠ target) and lists the
commits from the source down to — but excluding — the target, ordered
nearest-source first; no commit on it carries the target sha. -/
theorem traversePaths_includes_source_excludes_target (g : Graph) (fuel : Nat)
    (source target : String) (p : List Commit)
    (hp : p ∈ traversePaths g fuel source target []) :
    isChain g target source p ∧ (∀ c ∈ p, c.sha ≠ target) ∧
      (source ≠ target → p.head? = some (makeCommit g source)) := by
  obtain ⟨rest, hrest, hchain⟩ := traversePaths_chain g fuel source target [] p hp
  simp only [List.nil_append] at hrest
  subst hrest
  refine ⟨hchain, isChain_sha_ne g target p source hchain, ?_⟩
  intro hst
  cases p with
  | nil => exact absurd hchain hst
  | cons c rest2 =>
    obtain ⟨rfl, _, _⟩ := hchain
    rfl

/-- Claim C4, amended, witness. -/
theorem traversePaths_includes_source_excludes_target_witness :
    isChain gLinear "t" "a" [makeCommit gLinear "a", makeCommit gLinear "b"] ∧
    (∀ c ∈ [makeCommit gLinear "a", makeCommit gLinear "b"], c.sha ≠ "t") ∧
    ("a" ≠ "t" → [makeCommit gLinear "a", makeCommit gLinear "b"].head?
        = some (makeCommit gLinear "a")) :=
  traversePaths_includes_source_excludes_target gLinear 3 "a" "t"
    [makeCommit gLinear "a", makeCommit gLinear "b"] (by decide)

/-- Claim C5: on a linear three-commit path whose first commit carries
tag `a` and whose third carries tag `b` (no merges), tip extraction
yields exactly the two heads (first commit, `a`) and (second commit,
`b`) — the second head's tip is the window start, not the marker
carrier. -/
theorem extractTips_linear_chain_two_tags (s1 s2 s3 m1 m2 m3 a b : String)
    (ha : a ≠ "") (hb : b ≠ "") :
    findTipsOfPrs [⟨s1, m1, a, false⟩, ⟨s2, m2, "", false⟩, ⟨s3, m3, b, false⟩]
      = [⟨s1, a⟩, ⟨s2, b⟩] := by
  have ha2 : (a == "") = false := beq_eq_false_iff_ne.mpr ha
  have hb2 : (b == "") = false := beq_eq_false_iff_ne.mpr hb
  have h0 : (("" : String) == "") = true := by decide
  simp [findTipsOfPrs, stopperIndices, stopperIndicesAux, tipsLoop, bne, ha2, hb2, h0,
    List.getD]

/-- Claim C5, witness. -/
theorem extractTips_linear_chain_two_tags_witness :
    findTipsOfPrs [⟨"s1", "", "A", false⟩, ⟨"s2", "", "", false⟩, ⟨"s3", "", "B", false⟩]
      = [⟨"s1", "A"⟩, ⟨"s2", "B"⟩] :=
  extractTips_linear_chain_two_tags "s1" "s2" "s3" "" "" "" "A" "B"
    (by decide) (by decide)

/-- Claim C6: an untagged merge commit acts as a silent segment
boundary: on the path [c1 (tag `a`), c2 (merge), c3 (tag `b`)] tip
extraction yields exactly (c1, `a`) and (c3, `b`) — the merge never
becomes a tip, and c3's window starts after the merge, so the second
head's tip is c3 itself. -/
theorem extractTips_merge_boundary_two_tags (s1 s2 s3 m1 m2 m3 a b : String)
    (ha : a ≠ "") (hb : b ≠ "") :
    findTipsOfPrs [⟨s1, m1, a, false⟩, ⟨s2, m2, "", true⟩, ⟨s3, m3, b, false⟩]
      = [⟨s1, a⟩, ⟨s3, b⟩] := by
  have ha2 : (a == "") = false := beq_eq_false_iff_ne.mpr ha
  have hb2 : (b == "") = false := beq_eq_false_iff_ne.mpr hb
  have h0 : (("" : String) == "") = true := by decide
  simp [findTipsOfPrs, stopperIndices, stopperIndicesAux, tipsLoop, bne, ha2, hb2, h0,
    List.getD]

/-- Claim C6, witness. -/
theorem extractTips_merge_boundary_two_tags_witness :
    findTipsOfPrs [⟨"s1", "", "A", false⟩, ⟨"s2", "", "", true⟩, ⟨"s3", "", "B", false⟩]
      = [⟨"s1", "A"⟩, ⟨"s3", "B"⟩] :=
  extractTips_merge_boundary_two_tags "s1" "s2" "s3" "" "" "" "A" "B"
    (by decide) (by decide)

/-- Claim C7: every head emitted by tip extraction is justified by a
non-merge commit of the path carrying its (non-empty) branch tag; in
particular a merge commit never produces a head, even if its own message
carries a branch tag. -/
theorem merge_commit_never_emits_head (commits : List Commit) (h : Head)
    (hmem : h ∈ findTipsOfPrs commits) :
    ∃ c ∈ commits, c.isMerge = false ∧ c.psBranch ≠ "" ∧ c.psBranch = h.ref := by
  simp only [findTipsOfPrs] at hmem
  by_cases he : (stopperIndices commits).isEmpty = true
  · rw [if_pos he] at hmem
    simp at hmem
  · rw [if_neg he] at hmem
    refine tipsLoopEmits commits (stopperIndices commits) 0 ?_ h hmem
    intro j hj
    have := stopperIndicesAux_bound commits 0 j hj
    omega

/-- Claim C7, witness. -/
theorem merge_commit_never_emits_head_witness :
    ∃ c ∈ [(⟨"s1", "", "A", false⟩ : Commit)],
      c.isMerge = false ∧ c.psBranch ≠ "" ∧ c.psBranch = (⟨"s1", "A"⟩ : Head).ref :=
  merge_commit_never_emits_head [⟨"s1", "", "A", false⟩] ⟨"s1", "A"⟩ (by decide)

/-- Claim C8: a head whose ref is ignorable (case-insensitively empty,
"null" or "nil") is never handed to the publish callback, its tag name
never appears among the tag names of published heads (the active set),
and its sha enters the published set only if it was already there or
some non-ignorable head shares that sha. -/
theorem ignorable_ref_never_published (heads : List Head) (pushed : List String) (h : Head)
    (hign : shouldIgnoreRef h.ref = true) :
    h ∉ (dfsPushes heads pushed).1 ∧
    tagName h ∉ ((dfsPushes heads pushed).1).map tagName ∧
    (h.sha ∈ (dfsPushes heads pushed).2 →
      h.sha ∈ pushed ∨ ∃ e ∈ heads, e.sha = h.sha ∧ shouldIgnoreRef e.ref = false) := by
  obtain ⟨-, -, n3, n4⟩ := dfsPushes_inv heads pushed
  refine ⟨?_, ?_, ?_⟩
  · intro hmem
    exact absurd (n4 h hmem).1 (by simp [hign])
  · intro hmem
    simp only [List.mem_map] at hmem
    obtain ⟨e, he, heq⟩ := hmem
    have href : e.ref = h.ref := tagNameInj e h heq
    have hfalse := (n4 e he).1
    rw [href, hign] at hfalse
    exact absurd hfalse (by simp)
  · intro hsha
    rcases (n3 h.sha).1 hsha with hp | hm
    · exact Or.inl hp
    · simp only [List.mem_map] at hm
      obtain ⟨e, he, hesha⟩ := hm
      exact Or.inr ⟨e, (n4 e he).2, hesha, (n4 e he).1⟩

/-- Claim C8, witness. -/
theorem ignorable_ref_never_published_witness :
    (⟨"s", "NULL"⟩ : Head) ∉ (dfsPushes [⟨"s", "NULL"⟩] []).1 ∧
    tagName ⟨"s", "NULL"⟩ ∉ ((dfsPushes [⟨"s", "NULL"⟩] []).1).map tagName ∧
    ((⟨"s", "NULL"⟩ : Head).sha ∈ (dfsPushes [⟨"s", "NULL"⟩] []).2 →
      (⟨"s", "NULL"⟩ : Head).sha ∈ ([] : List String) ∨
        ∃ e ∈ [(⟨"s", "NULL"⟩ : Head)], e.sha = (⟨"s", "NULL"⟩ : Head).sha ∧
          shouldIgnoreRef e.ref = false) :=
  ignorable_ref_never_published [⟨"s", "NULL"⟩] [] ⟨"s", "NULL"⟩ (by decide)

/-- Claim C9: mutation outcomes never influence control flow — with any
outcome function, the publisher attempts exactly the heads that the
outcome-blind scan publishes (none is skipped because an earlier
mutation failed) and ends in the same published set, and likewise the
reaper attempts every stale-tag deletion; by contrast a failing
foundational history read (here: `getParents` of the source) makes the
whole path enumeration abort with `none`. -/
theorem mutation_failures_continue_read_failures_abort
    (heads : List Head) (pushed : List String) (res : Head → pushResult)
    (resD : String → pushResult) (active tags : List String)
    (gE : GraphE) (fuel : Nat) (source target : String) (acc : List Commit)
    (hfail : gE.parents source = none) (hne : source ≠ target) :
    ((runMutations res heads pushed).1.map Prod.fst = (dfsPushes heads pushed).1 ∧
      (runMutations res heads pushed).2 = (dfsPushes heads pushed).2) ∧
    (removeStaleTagsR resD active tags).map Prod.fst = removeStaleTags active tags ∧
    traversePathsE gE (fuel + 1) source target acc = none := by
  refine ⟨runMutations_eq res heads pushed, removeStaleTagsR_eq resD active tags, ?_⟩
  rw [traversePathsE, if_neg hne, hfail]

/-- Claim C9, witness. -/
theorem mutation_failures_continue_read_failures_abort_witness :
    ((runMutations (fun _ => ⟨false, "error"⟩) [⟨"s", "a"⟩] []).1.map Prod.fst
        = (dfsPushes [⟨"s", "a"⟩] []).1 ∧
      (runMutations (fun _ => ⟨false, "error"⟩) [⟨"s", "a"⟩] []).2
        = (dfsPushes [⟨"s", "a"⟩] []).2) ∧
    (removeStaleTagsR (fun _ => ⟨false, "error"⟩) [] ["PR_BRANCH/x"]).map Prod.fst
      = removeStaleTags [] ["PR_BRANCH/x"] ∧
    traversePathsE gFail (0 + 1) "s" "t" [] = none :=
  mutation_failures_continue_read_failures_abort [⟨"s", "a"⟩] []
    (fun _ => ⟨false, "error"⟩) (fun _ => ⟨false, "error"⟩) [] ["PR_BRANCH/x"]
    gFail 0 "s" "t" [] (by decide) (by decide)

/-- Claim C10: the reaper considers a tag for deletion exactly by the
raw string prefix `PR_BRANCH` — every deleted tag starts with that
string, and every listed tag that starts with it (even without the `/`
separator, e.g. `PR_BRANCHES`) is deleted whenever it is not in the
active set. -/
theorem reaper_raw_prefix_selection (active tags : List String) (t : String)
    (hmem : t ∈ tags) (hpre : strStartsWith t BRANCH_PFX = true) (hact : t ∉ active) :
    (∀ u ∈ removeStaleTags active tags, strStartsWith u BRANCH_PFX = true) ∧
    t ∈ removeStaleTags active tags :=
  ⟨removeStaleTags_sub active tags, removeStaleTags_mem active tags t hmem hpre hact⟩

/-- Claim C10, witness: `PR_BRANCHES` has the raw prefix but not the
namespaced `PR_BRANCH/` form, and it is deleted. -/
theorem reaper_raw_prefix_selection_witness :
    (∀ u ∈ removeStaleTags ["PR_BRANCH/A"] ["PR_BRANCH/A", "PR_BRANCHES", "other"],
      strStartsWith u BRANCH_PFX = true) ∧
    "PR_BRANCHES" ∈ removeStaleTags ["PR_BRANCH/A"] ["PR_BRANCH/A", "PR_BRANCHES", "other"] :=
  reaper_raw_prefix_selection ["PR_BRANCH/A"] ["PR_BRANCH/A", "PR_BRANCHES", "other"]
    "PR_BRANCHES" (by decide) (by decide) (by decide)
